import Mathlib

/-!
Verification development for fastcov (fastcov.py): a shallow embedding of the
distillation engine, branch-noise filtering, exclusion-marker scanning,
chunking, and LCOV/JSON serialization, together with theorems settling the
frozen claims about the program.

Python dictionaries are embedded as association lists (insertion-ordered,
unique keys by construction); Python ints (all counts here are non-negative
gcov counters, cast with `int(...)` in the source) are embedded as `Nat`.
-/

namespace Fastcov

/-- A raw gcov branch entry `{"count": ..., "throw": ...}` (see the gcov
intermediate JSON shape consumed by `distillLine`). -/
structure Branch where
  count : Nat
  throw : Bool
deriving DecidableEq, Repr

/-- A raw gcov function entry `{"name", "start_line", "execution_count"}`. -/
structure RawFunction where
  name : String
  start_line : Nat
  execution_count : Nat
deriving DecidableEq, Repr

/-- A raw gcov line entry `{"line_number", "count", "branches"}`. -/
structure RawLine where
  line_number : Nat
  count : Nat
  branches : List Branch
deriving DecidableEq, Repr

/-- A raw per-translation-unit source record (one element of the gcov
`"files"` array after `processGcov` attached `file_abs`). -/
structure RawSource where
  file_abs : String
  functions : List RawFunction
  lines : List RawLine
deriving DecidableEq, Repr

/-- The aggregated entry stored per function name by `distillFunction`. -/
structure FunctionEntry where
  start_line : Nat
  execution_count : Nat
deriving DecidableEq, Repr

/-- The canonical per-source record `{"functions", "branches", "lines"}`
created by `distillSource`.  Each Python dict is an association list. -/
structure SourceRecord where
  functions : List (String × FunctionEntry)
  lines : List (Nat × Nat)
  branches : List (Nat × List Nat)
deriving DecidableEq, Repr

/-- First-match association-list lookup: the embedding of `d[k]` /
`k in d` on a Python dict with unique keys. -/
def lookupVal {κ β : Type} [DecidableEq κ] (k : κ) : List (κ × β) → Option β
  | [] => none
  | p :: rest => if p.1 = k then some p.2 else lookupVal k rest

/-- Pointwise value update at a key: the embedding of `d[k] = v` when `k` is
already present. -/
def setVal {κ β : Type} [DecidableEq κ] (k : κ) (v : β) (m : List (κ × β)) :
    List (κ × β) :=
  m.map (fun p => if p.1 = k then (k, v) else p)

/-- Key deletion: the embedding of `del d[k]` (callers that are not guarded by
a membership test are modelled fallibly where the claim needs it). -/
def delKey {β : Type} (k : Nat) (m : List (Nat × β)) : List (Nat × β) :=
  m.filter (fun p => p.1 != k)

/-! ## Distillation: functions (fastcov.py lines 275-287) -/

/-- Embedding of `distillFunction`: first sighting of a name installs
`{start_line, execution_count}`; later sightings add into
`execution_count`. -/
def distillFunction (function_raw : RawFunction)
    (functions : List (String × FunctionEntry)) :
    List (String × FunctionEntry) :=
  match lookupVal function_raw.name functions with
  | none => functions ++
      [(function_raw.name,
        ⟨function_raw.start_line, function_raw.execution_count⟩)]
  | some _ => functions.map (fun p =>
      if p.1 = function_raw.name then
        (p.1, ⟨p.2.start_line, p.2.execution_count + function_raw.execution_count⟩)
      else p)

/-! ## Distillation: branch-noise filtering (fastcov.py lines 289-315) -/

/-- Embedding of `emptyBranchSet`. -/
def emptyBranchSet (branch1 branch2 : Branch) : Bool :=
  branch1.count == 0 && branch2.count == 0

/-- Embedding of `matchingBranchSet`. -/
def matchingBranchSet (branch1 branch2 : Branch) : Bool :=
  branch1.count == branch2.count

/-- The loop of `filterExceptionalBranches`: processes `branches` two at a
time (Python's `range(0, len, 2)`), carrying the accumulated
`filtered_branches` and the `exception_branch` flag.  `filtered.getD
(filtered.length - 1)` / `- 2` embed Python's `filtered_branches[-1]` /
`[-2]`, guarded by the `len >= 2` test exactly as in the source. -/
def filterExceptionalBranchesAux :
    List Branch → List Branch → Bool → List Branch
  | [], filtered, _ => filtered
  | [b], filtered, _ => filtered ++ [b]
  | b1 :: b2 :: rest, filtered, exception_branch =>
    if b2.throw then
      filterExceptionalBranchesAux rest filtered true
    else if exception_branch && emptyBranchSet b1 b2 &&
        decide (2 ≤ filtered.length) &&
        matchingBranchSet (filtered.getD (filtered.length - 1) ⟨0, false⟩)
          (filtered.getD (filtered.length - 2) ⟨0, false⟩) then
      []
    else
      filterExceptionalBranchesAux rest (filtered ++ [b1, b2]) exception_branch

/-- Embedding of `filterExceptionalBranches`. -/
def filterExceptionalBranches (branches : List Branch) : List Branch :=
  filterExceptionalBranchesAux branches [] false

/-- Flatten a list of branch pairs into the gcov native pairing. -/
def pairsFlat : List (Branch × Branch) → List Branch
  | [] => []
  | p :: ps => p.1 :: p.2 :: pairsFlat ps

/-! ## Distillation: lines and branches (fastcov.py lines 317-337) -/

/-- The branch-accumulation loop of `distillLine` (`for i, branch in
enumerate(line_raw["branches"])`): `glen` is the fixed length of the incoming
list; the accumulator is zero-extended whenever it is shorter than `glen`
(which can only happen on the first iteration) and then the count at index
`i` is incremented. -/
def accumGo (glen : Nat) : List Nat → Nat → List Nat → List Nat
  | [], _, acc => acc
  | c :: rest, i, acc =>
    let acc1 := if acc.length < glen then
        acc ++ List.replicate (glen - acc.length) 0
      else acc
    accumGo glen rest (i + 1) (acc1.set i (acc1.getD i 0 + c))

/-- Accumulate an incoming branch-count list into the canonical per-line
list, exactly as the loop in `distillLine` does. -/
def accumBranchCounts (canon incoming : List Nat) : List Nat :=
  accumGo incoming.length incoming 0 canon

/-- The branch-map update of `distillLine` for one line: when the (filtered)
incoming branch list is empty the loop body never runs, so no branch entry
is created; otherwise a missing entry is created as `[]` (appended at the
end of the dict) before the loop extends and increments it — equivalently,
the stored list becomes `accumBranchCounts` of the old (or empty) value and
the incoming counts. -/
def distillLineBranches :
    Nat → List Branch → List (Nat × List Nat) → List (Nat × List Nat)
  | _, [], branches => branches
  | line_number, b :: bs, branches =>
    match lookupVal line_number branches with
    | none => branches ++ [(line_number,
        accumBranchCounts [] ((b :: bs).map (fun br => br.count)))]
    | some cur => setVal line_number
        (accumBranchCounts cur ((b :: bs).map (fun br => br.count))) branches

/-- Embedding of `distillLine`: sums the line execution count into `lines`
and accumulates the (possibly noise-filtered) branch list into `branches`. -/
def distillLine (line_raw : RawLine) (lines : List (Nat × Nat))
    (branches : List (Nat × List Nat)) (include_exceptional_branches : Bool) :
    List (Nat × Nat) × List (Nat × List Nat) :=
  let line_number := line_raw.line_number
  let lines' := match lookupVal line_number lines with
    | none => lines ++ [(line_number, line_raw.count)]
    | some c => setVal line_number (c + line_raw.count) lines
  let lb := if include_exceptional_branches then line_raw.branches
    else filterExceptionalBranches line_raw.branches
  (lines', distillLineBranches line_number lb branches)

/-- Embedding of `distillSource` (fastcov.py lines 339-352): creates the
canonical record on first sight of the path, then folds `distillFunction`
over the raw functions and `distillLine` over the raw lines. -/
def distillSource (source_raw : RawSource)
    (sources : List (String × SourceRecord))
    (include_exceptional_branches : Bool) : List (String × SourceRecord) :=
  let sources1 : List (String × SourceRecord) :=
    match lookupVal source_raw.file_abs sources with
    | none => sources ++ [(source_raw.file_abs, ⟨[], [], []⟩)]
    | some _ => sources
  sources1.map (fun (p : String × SourceRecord) =>
    if p.1 = source_raw.file_abs then
      (p.1,
        { functions := source_raw.functions.foldl
            (fun m f => distillFunction f m) p.2.functions,
          lines := (source_raw.lines.foldl
            (fun lb l => distillLine l lb.1 lb.2 include_exceptional_branches)
            (p.2.lines, p.2.branches)).1,
          branches := (source_raw.lines.foldl
            (fun lb l => distillLine l lb.1 lb.2 include_exceptional_branches)
            (p.2.lines, p.2.branches)).2 })
    else p)

/-- Embedding of `distillReport` (fastcov.py lines 354-362): folds
`distillSource` over the raw records starting from the empty report. -/
def distillReport (report_raw : List RawSource)
    (include_exceptional_branches : Bool) : List (String × SourceRecord) :=
  report_raw.foldl
    (fun sources s => distillSource s sources include_exceptional_branches) []

/-- Spec-side helper (from the spec's words "zero-extend"): pad a count list
with zeros up to length `n`. -/
def padZero (l : List Nat) (n : Nat) : List Nat :=
  l ++ List.replicate (n - l.length) 0

/-! ## Chunking (fastcov.py lines 46-49, 110-120, 262-263) -/

/-- The chunk size used by both `processGcdas` and `scanExclusionMarkers`:
`max(min_chunk_size, int(len(files) / jobs) + 1)`.  Python's
`int(x / y)` on non-negative ints is floor division, i.e. `Nat` division. -/
def chunkSize (min_chunk_size total jobs : Nat) : Nat :=
  max min_chunk_size (total / jobs + 1)

/-- Embedding of the `chunks` generator: successive `n`-sized slices
`l[i:i+n]` for `i in range(0, len(l), n)`.  (`n = 0` cannot occur in the
program, since the chunk size is always at least `int(_) + 1 ≥ 1`.) -/
def chunksList {α : Type} (l : List α) (n : Nat) : List (List α) :=
  if _h : l.length = 0 ∨ n = 0 then []
  else l.take n :: chunksList (l.drop n) n
termination_by l.length
decreasing_by
  simp only [not_or] at _h
  simp only [List.length_drop]
  omega

/-! ## Exclusion-marker scanning (fastcov.py lines 210-260) -/

/-- Embedding of Python `line.lstrip()` (drop leading whitespace). -/
def lstrip (s : List Char) : List Char :=
  s.dropWhile (fun c => c.isWhitespace)

/-- Embedding of Python's substring test `pat in s`. -/
def subStr (pat : List Char) : List Char → Bool
  | [] => pat.isEmpty
  | c :: t => pat.isPrefixOf (c :: t) || subStr pat t

def lcovExcl : List Char := "LCOV_EXCL".toList
def lcovExclLine : List Char := "LCOV_EXCL_LINE".toList
def lcovExclStart : List Char := "LCOV_EXCL_START".toList
def lcovExclStop : List Char := "LCOV_EXCL_STOP".toList
def lcovExclBrLine : List Char := "LCOV_EXCL_BR_LINE".toList

/-- A source line consisting of exactly a range-start marker. -/
def mkStartLine : List Char := "LCOV_EXCL_START".toList

/-- A source line consisting of exactly a range-stop marker. -/
def mkStopLine : List Char := "LCOV_EXCL_STOP".toList

/-- Embedding of the branch include/exclude prefix filtering at the top of
the `exclMarkerWorker` loop body (fastcov.py lines 229-234).  The returned
flag is `true` when the code raises `KeyError`: both deletions fire on the
same line, and the second `del fastcov_sources[source]["branches"][i]`
operates on a dict that no longer holds the key. -/
def branchFilterStep (include_branches_sw exclude_branches_sw : List (List Char))
    (i : Nat) (line : List Char) (r : SourceRecord) : SourceRecord × Bool :=
  if (lookupVal i r.branches).isSome then
    let stripped := lstrip line
    let r1 := if !include_branches_sw.isEmpty &&
        include_branches_sw.all (fun e => !(e.isPrefixOf stripped)) then
        { r with branches := delKey i r.branches }
      else r
    if !exclude_branches_sw.isEmpty &&
        exclude_branches_sw.any (fun e => e.isPrefixOf stripped) then
      if (lookupVal i r1.branches).isSome then
        ({ r1 with branches := delKey i r1.branches }, false)
      else (r1, true)
    else (r1, false)
  else (r, false)

/-- Embedding of the `LCOV_EXCL` marker handling (fastcov.py lines 236-260).
`start_line = 0` encodes "no pending range start" (`if not start_line`);
real line numbers are 1-based.  The local `end_line` is written and read
within a single iteration only, so it is not part of the loop state. -/
def markerStep (i : Nat) (line : List Char) (r : SourceRecord)
    (start_line : Nat) : SourceRecord × Nat :=
  if !(subStr lcovExcl line) then (r, start_line)
  else if subStr lcovExclLine line then
    ({ r with lines := delKey i r.lines, branches := delKey i r.branches },
     start_line)
  else if subStr lcovExclStart line then (r, i)
  else if subStr lcovExclStop line then
    if start_line = 0 then (r, start_line)
    else
      ({ r with
          lines := r.lines.filter
            (fun p => !(start_line ≤ p.1 && p.1 ≤ i)),
          branches := r.branches.filter
            (fun p => !(start_line ≤ p.1 && p.1 ≤ i)) }, 0)
  else if subStr lcovExclBrLine line then
    ({ r with branches := delKey i r.branches }, start_line)
  else (r, start_line)

/-- One full iteration of the `exclMarkerWorker` loop body for line number
`i` with text `line`: prefix filtering first, then marker handling.  On
`KeyError` the iteration aborts with the error flag set. -/
def exclStep (include_branches_sw exclude_branches_sw : List (List Char))
    (st : SourceRecord × Nat) (i : Nat) (line : List Char) :
    (SourceRecord × Nat) × Bool :=
  let fb := branchFilterStep include_branches_sw exclude_branches_sw i line st.1
  if fb.2 then ((fb.1, st.2), true)
  else (markerStep i line fb.1 st.2, false)

/-- The `enumerate(getSourceLines(source), 1)` loop of `exclMarkerWorker`
over one source: processes the file's lines with 1-based numbering;
a raised `KeyError` aborts the remaining lines (flag `true`). -/
def exclScanGo (include_branches_sw exclude_branches_sw : List (List Char)) :
    List (List Char) → Nat → (SourceRecord × Nat) → (SourceRecord × Nat) × Bool
  | [], _, st => (st, false)
  | line :: rest, i, st =>
    let step := exclStep include_branches_sw exclude_branches_sw st i line
    if step.2 then (step.1, true)
    else exclScanGo include_branches_sw exclude_branches_sw rest (i + 1) step.1

/-- Embedding of `exclMarkerWorker` restricted to a single source record:
scan the file text against the record, starting with no pending range start.
Result: the record and pending-start state reached, plus the error flag. -/
def exclMarkerScan (r : SourceRecord) (fileLines : List (List Char))
    (exclude_branches_sw include_branches_sw : List (List Char)) :
    (SourceRecord × Nat) × Bool :=
  exclScanGo include_branches_sw exclude_branches_sw fileLines 1 (r, 0)

/-! ## LCOV serialization (fastcov.py lines 157-208) -/

/-- Python's ascending sort order on `(int, str)` tuples: first component,
then string comparison (which Lean's `String` linear order also performs by
code points). -/
def lexNS (a b : Nat × String) : Prop :=
  a.1 < b.1 ∨ (a.1 = b.1 ∧ a.2 ≤ b.2)

instance : DecidableRel lexNS := fun a b => by
  unfold lexNS; infer_instance

/-- Python's ascending sort order on `(int, int)` tuples. -/
def lexNN (a b : Nat × Nat) : Prop :=
  a.1 < b.1 ∨ (a.1 = b.1 ∧ a.2 ≤ b.2)

instance : DecidableRel lexNN := fun a b => by
  unfold lexNN; infer_instance

/-- Python's ascending sort order on the 4-int `BRDA` tuples
`(line, block, branch_index, count)`. -/
def lexBr (a b : Nat × Nat × Nat × Nat) : Prop :=
  a.1 < b.1 ∨ (a.1 = b.1 ∧
    (a.2.1 < b.2.1 ∨ (a.2.1 = b.2.1 ∧
      (a.2.2.1 < b.2.2.1 ∨ (a.2.2.1 = b.2.2.1 ∧ a.2.2.2 ≤ b.2.2.2)))))

instance : DecidableRel lexBr := fun a b => by
  unfold lexBr; infer_instance

/-- The unsorted `fn` list built by `dumpToLcovInfo`:
`(start_line, name)` per function, in dict order. -/
def fnPairs (data : SourceRecord) : List (Nat × String) :=
  data.functions.map (fun p => (p.2.start_line, p.1))

/-- The unsorted `fnda` list: `(execution_count, name)` per function. -/
def fndaPairs (data : SourceRecord) : List (Nat × String) :=
  data.functions.map (fun p => (p.2.execution_count, p.1))

/-- `fn_miss`: how many functions have execution count 0. -/
def fnMiss (data : SourceRecord) : Nat :=
  (data.functions.filter (fun p => p.2.execution_count == 0)).length

/-- The unsorted `brda` list built by `dumpBranchCoverageToLcovInfo`:
one `(line, int(i/2), i, count)` tuple per stored branch count. -/
def brdaOf (branches : List (Nat × List Nat)) : List (Nat × Nat × Nat × Nat) :=
  (branches.map (fun p =>
    p.2.enum.map (fun ic => (p.1, ic.1 / 2, ic.1, ic.2)))).flatten

/-- `branch_found`: incremented once per appended `brda` tuple. -/
def branchFound (branches : List (Nat × List Nat)) : Nat :=
  (brdaOf branches).length

/-- `branch_miss`: incremented once per branch whose count is 0. -/
def branchMiss (branches : List (Nat × List Nat)) : Nat :=
  ((brdaOf branches).filter (fun t => t.2.2.2 == 0)).length

/-- The unsorted `da` list: `(line_number, count)` per line. -/
def daPairs (data : SourceRecord) : List (Nat × Nat) :=
  data.lines.map (fun p => (p.1, p.2))

/-- `line_miss`: how many lines have count 0. -/
def lineMiss (data : SourceRecord) : Nat :=
  (data.lines.filter (fun p => p.2 == 0)).length

/-- Embedding of `dumpBranchCoverageToLcovInfo`: the `BRDA` lines in sorted
tuple order, then `BRF` and `BRH`. -/
def dumpBranchCoverageToLcovInfo (branches : List (Nat × List Nat)) :
    List String :=
  (List.insertionSort lexBr (brdaOf branches)).map (fun v =>
    "BRDA:" ++ toString v.1 ++ "," ++ toString v.2.1 ++ "," ++
      toString v.2.2.1 ++ "," ++ toString v.2.2.2)
  ++ ["BRF:" ++ toString (branchFound branches),
      "BRH:" ++ toString (branchFound branches - branchMiss branches)]

/-- Embedding of one source's block in `dumpToLcovInfo` (the body of the
`for sf in sorted(sources.keys())` loop), as the list of emitted lines. -/
def dumpSourceLcov (sf : String) (data : SourceRecord) : List String :=
  ["TN:", "SF:" ++ sf]
  ++ (List.insertionSort lexNS (fnPairs data)).map (fun v =>
       "FN:" ++ toString v.1 ++ "," ++ v.2)
  ++ (List.insertionSort lexNS (fndaPairs data)).map (fun v =>
       "FNDA:" ++ toString v.1 ++ "," ++ v.2)
  ++ ["FNF:" ++ toString data.functions.length,
      "FNH:" ++ toString (data.functions.length - fnMiss data)]
  ++ (if data.branches.isEmpty then []
      else dumpBranchCoverageToLcovInfo data.branches)
  ++ (List.insertionSort lexNN (daPairs data)).map (fun v =>
       "DA:" ++ toString v.1 ++ "," ++ toString v.2)
  ++ ["LF:" ++ toString data.lines.length,
      "LH:" ++ toString (data.lines.length - lineMiss data),
      "end_of_record"]

/-- Embedding of `dumpToLcovInfo`: source blocks in ascending path order. -/
def dumpToLcovInfo (sources : List (String × SourceRecord)) : List String :=
  ((List.insertionSort (fun a b : String => a ≤ b)
      (sources.map (fun p => p.1))).map (fun sf =>
    dumpSourceLcov sf ((lookupVal sf sources).getD ⟨[], [], []⟩))).flatten

/-! ## JSON round trip (fastcov.py lines 364-366)

`dumpToJson` writes the in-memory report with `json.dump` and the round-trip
claim re-parses that document with `json.load`.  The document is modelled as
a JSON syntax tree (it identifies the written text up to whitespace and key
order), and Python values as `PyVal`: report dicts hold either `int` or
`str` keys — `distillLine` keys lines and branches by `int`.  Per Python's
json semantics, `json.dump` writes an int dict key as its decimal string,
and `json.load` always produces dicts with string keys. -/

/-- A Python dict key occurring in a report: an int or a string. -/
inductive PyKey where
  | pint (n : Nat)
  | pstr (s : String)
deriving DecidableEq, Repr

mutual

/-- A Python value occurring in a (parsed or in-memory) report. -/
inductive PyVal where
  | pint (n : Nat)
  | pstr (s : String)
  | plist (xs : PyList)
  | pdict (es : PyFields)

/-- A list of Python values. -/
inductive PyList where
  | nil
  | cons (hd : PyVal) (tl : PyList)

/-- The entries of a Python dict, in insertion order. -/
inductive PyFields where
  | nil
  | cons (k : PyKey) (v : PyVal) (tl : PyFields)

end

mutual

/-- A JSON document fragment. -/
inductive Json where
  | jnum (n : Nat)
  | jstr (s : String)
  | jarr (xs : JsonList)
  | jobj (fs : JsonFields)

/-- A JSON array's elements. -/
inductive JsonList where
  | nil
  | cons (hd : Json) (tl : JsonList)

/-- A JSON object's members, in document order. -/
inductive JsonFields where
  | nil
  | cons (k : String) (v : Json) (tl : JsonFields)

end

/-- How `json.dump` renders a dict key: ints become their decimal string. -/
def keyStr : PyKey → String
  | .pint n => toString n
  | .pstr s => s

mutual

/-- The document `json.dump` writes for a Python value. -/
def dumpJson : PyVal → Json
  | .pint n => .jnum n
  | .pstr s => .jstr s
  | .plist xs => .jarr (dumpJsonList xs)
  | .pdict es => .jobj (dumpJsonFields es)

def dumpJsonList : PyList → JsonList
  | .nil => .nil
  | .cons x xs => .cons (dumpJson x) (dumpJsonList xs)

def dumpJsonFields : PyFields → JsonFields
  | .nil => .nil
  | .cons k v es => .cons (keyStr k) (dumpJson v) (dumpJsonFields es)

end

mutual

/-- The Python value `json.load` produces from a document: object keys are
always strings. -/
def loadJson : Json → PyVal
  | .jnum n => .pint n
  | .jstr s => .pstr s
  | .jarr xs => .plist (loadJsonList xs)
  | .jobj fs => .pdict (loadJsonFields fs)

def loadJsonList : JsonList → PyList
  | .nil => .nil
  | .cons x xs => .cons (loadJson x) (loadJsonList xs)

def loadJsonFields : JsonFields → PyFields
  | .nil => .nil
  | .cons k v fs => .cons (.pstr k) (loadJson v) (loadJsonFields fs)

end

mutual

/-- Spec-side transform: the original value with every dict key replaced by
its decimal-string form. -/
def strKeys : PyVal → PyVal
  | .pint n => .pint n
  | .pstr s => .pstr s
  | .plist xs => .plist (strKeysList xs)
  | .pdict es => .pdict (strKeysFields es)

def strKeysList : PyList → PyList
  | .nil => .nil
  | .cons x xs => .cons (strKeys x) (strKeysList xs)

def strKeysFields : PyFields → PyFields
  | .nil => .nil
  | .cons k v es => .cons (.pstr (keyStr k)) (strKeys v) (strKeysFields es)

end

/-- Build a `PyFields` from an association list. -/
def pyFieldsOf : List (PyKey × PyVal) → PyFields
  | [] => .nil
  | (k, v) :: rest => .cons k v (pyFieldsOf rest)

/-- Build a `PyList` from a list. -/
def pyListOf : List PyVal → PyList
  | [] => .nil
  | x :: rest => .cons x (pyListOf rest)

/-- The in-memory Python value of one canonical source record, with the dict
keys in the order `distillSource` creates them. -/
def pyOfSourceRecord (r : SourceRecord) : PyVal :=
  .pdict (pyFieldsOf
    [(.pstr "functions", .pdict (pyFieldsOf (r.functions.map (fun p =>
        (.pstr p.1, .pdict (pyFieldsOf
          [(.pstr "start_line", .pint p.2.start_line),
           (.pstr "execution_count", .pint p.2.execution_count)])))))),
     (.pstr "branches", .pdict (pyFieldsOf (r.branches.map (fun p =>
        (.pint p.1, .plist (pyListOf (p.2.map PyVal.pint))))))),
     (.pstr "lines", .pdict (pyFieldsOf (r.lines.map (fun p =>
        (.pint p.1, .pint p.2)))))])

/-- The in-memory Python value of the whole report
`{"sources": {path: record}}`. -/
def pyOfReport (sources : List (String × SourceRecord)) : PyVal :=
  .pdict (pyFieldsOf
    [(.pstr "sources", .pdict (pyFieldsOf (sources.map (fun p =>
        (.pstr p.1, pyOfSourceRecord p.2)))))])

/-- The top-level keys of a Python dict (probe used to separate values). -/
def topKeys : PyVal → List PyKey
  | .pdict es => topKeysFields es
  | _ => []
where
  topKeysFields : PyFields → List PyKey
    | .nil => []
    | .cons k _ tl => k :: topKeysFields tl

/-- Look up a string key in a Python dict (probe used to separate values). -/
def getFieldStr (v : PyVal) (key : String) : PyVal :=
  match v with
  | .pdict es => go es
  | _ => .pint 0
where
  go : PyFields → PyVal
    | .nil => .pint 0
    | .cons k w tl => if k = .pstr key then w else go tl

/-! ## Association-list lemmas -/

theorem lookupVal_append_some {κ β : Type} [DecidableEq κ] {k : κ}
    {m : List (κ × β)} {v : β} (m' : List (κ × β))
    (h : lookupVal k m = some v) : lookupVal k (m ++ m') = some v := by
  induction m with
  | nil => simp [lookupVal] at h
  | cons p rest ih =>
    by_cases hp : p.1 = k
    · simpa [lookupVal, hp] using h
    · simp only [lookupVal, hp, if_neg] at h ⊢
      simp only [List.cons_append, lookupVal, hp, if_neg, if_false]
      exact ih h

theorem lookupVal_append_of_none {κ β : Type} [DecidableEq κ] {k : κ}
    {m : List (κ × β)} (m' : List (κ × β))
    (h : lookupVal k m = none) : lookupVal k (m ++ m') = lookupVal k m' := by
  induction m with
  | nil => simp
  | cons p rest ih =>
    by_cases hp : p.1 = k
    · simp [lookupVal, hp] at h
    · simp only [lookupVal, hp, if_false] at h
      simp only [List.cons_append, lookupVal, hp, if_false]
      exact ih h

theorem lookupVal_setVal_self {κ β : Type} [DecidableEq κ] {k : κ}
    {m : List (κ × β)} {v : β} (w : β)
    (h : lookupVal k m = some v) :
    lookupVal k (setVal k w m) = some w := by
  induction m with
  | nil => simp [lookupVal] at h
  | cons p rest ih =>
    by_cases hp : p.1 = k
    · simp [setVal, lookupVal, hp]
    · simp only [lookupVal, hp, if_false] at h
      simpa [setVal, lookupVal, hp] using ih h

theorem lookupVal_setVal_ne {κ β : Type} [DecidableEq κ] {l k : κ}
    {m : List (κ × β)} (w : β) (h : l ≠ k) :
    lookupVal l (setVal k w m) = lookupVal l m := by
  induction m with
  | nil => simp [setVal, lookupVal]
  | cons p rest ih =>
    by_cases hp : p.1 = k
    · have hkl : k ≠ l := fun hc => h hc.symm
      have hpl : p.1 ≠ l := by rw [hp]; exact hkl
      simp only [setVal, List.map_cons, if_pos hp, lookupVal, hkl, hpl,
        if_false]
      simp only [setVal] at ih
      exact ih
    · simp only [setVal, List.map_cons, if_neg hp]
      simp only [setVal] at ih
      simp [lookupVal, ih]

/-! ## C1: distillFunction merge lemmas -/

theorem lookupVal_incMap (name : String) (c : Nat)
    (fs : List (String × FunctionEntry)) (e : FunctionEntry)
    (h : lookupVal name fs = some e) :
    lookupVal name (fs.map (fun p =>
        if p.1 = name then
          (p.1, (⟨p.2.start_line, p.2.execution_count + c⟩ : FunctionEntry))
        else p)) =
      some ⟨e.start_line, e.execution_count + c⟩ := by
  induction fs with
  | nil => simp [lookupVal] at h
  | cons p rest ih =>
    by_cases hp : p.1 = name
    · simp only [lookupVal, hp, if_true] at h
      cases h
      simp [lookupVal, hp]
    · simp only [lookupVal, hp, if_false] at h
      simp [lookupVal, hp, ih h]

theorem lookupVal_distillFunction_some (r : RawFunction)
    (fs : List (String × FunctionEntry)) (e : FunctionEntry)
    (h : lookupVal r.name fs = some e) :
    lookupVal r.name (distillFunction r fs) =
      some ⟨e.start_line, e.execution_count + r.execution_count⟩ := by
  unfold distillFunction
  rw [h]
  exact lookupVal_incMap r.name r.execution_count fs e h

theorem lookupVal_distillFunction_none (r : RawFunction)
    (fs : List (String × FunctionEntry))
    (h : lookupVal r.name fs = none) :
    lookupVal r.name (distillFunction r fs) =
      some ⟨r.start_line, r.execution_count⟩ := by
  unfold distillFunction
  rw [h, lookupVal_append_of_none _ h]
  simp [lookupVal]

theorem lookupVal_foldl_distillFunction (n : String) (l : List RawFunction) :
    ∀ (fs : List (String × FunctionEntry)) (e : FunctionEntry),
    (∀ r ∈ l, r.name = n) → lookupVal n fs = some e →
    lookupVal n (l.foldl (fun m r => distillFunction r m) fs) =
      some ⟨e.start_line,
        e.execution_count + (l.map (fun r => r.execution_count)).sum⟩ := by
  induction l with
  | nil => intro fs e _ h; simpa using h
  | cons r rest ih =>
    intro fs e hnames h
    have hr : r.name = n := hnames r (by simp)
    have h1 : lookupVal n (distillFunction r fs) =
        some ⟨e.start_line, e.execution_count + r.execution_count⟩ := by
      rw [← hr] at h ⊢
      exact lookupVal_distillFunction_some r fs e h
    have h2 := ih (distillFunction r fs)
      ⟨e.start_line, e.execution_count + r.execution_count⟩
      (fun x hx => hnames x (by simp [hx])) h1
    simpa [Nat.add_assoc] using h2

/-- C1: within one source path, `distillFunction` merges by name — the first
sighting fixes `start_line`, and after distilling `k` raw function records
for the same name (starting from a map without that name) the stored
`execution_count` is the sum of the `k` execution counts, a value that does
not depend on the order in which the records are merged. -/
theorem distillFunction_merge_sum (n : String) (r0 : RawFunction)
    (rest : List RawFunction) (fs : List (String × FunctionEntry))
    (h0 : r0.name = n) (hrest : ∀ r ∈ rest, r.name = n)
    (hnone : lookupVal n fs = none) :
    lookupVal n ((r0 :: rest).foldl (fun m r => distillFunction r m) fs) =
      some ⟨r0.start_line,
        ((r0 :: rest).map (fun r => r.execution_count)).sum⟩
    ∧ ∀ l' : List RawFunction, (r0 :: rest).Perm l' →
        ∃ e : FunctionEntry,
          lookupVal n (l'.foldl (fun m r => distillFunction r m) fs) = some e
          ∧ e.execution_count =
              ((r0 :: rest).map (fun r => r.execution_count)).sum := by
  have main : ∀ (s0 : RawFunction) (srest : List RawFunction),
      s0.name = n → (∀ r ∈ srest, r.name = n) →
      lookupVal n ((s0 :: srest).foldl (fun m r => distillFunction r m) fs) =
        some ⟨s0.start_line,
          ((s0 :: srest).map (fun r => r.execution_count)).sum⟩ := by
    intro s0 srest hs0 hsrest
    have hfirst : lookupVal n (distillFunction s0 fs) =
        some ⟨s0.start_line, s0.execution_count⟩ := by
      rw [← hs0] at hnone ⊢
      exact lookupVal_distillFunction_none s0 fs hnone
    have h2 := lookupVal_foldl_distillFunction n srest (distillFunction s0 fs)
      ⟨s0.start_line, s0.execution_count⟩ hsrest hfirst
    simpa using h2
  refine ⟨main r0 rest h0 hrest, ?_⟩
  intro l' hperm
  cases l' with
  | nil => exact absurd hperm.length_eq (by simp)
  | cons s0 srest =>
    have hmem : ∀ r ∈ s0 :: srest, r.name = n := by
      intro r hr
      have hmem0 : r ∈ r0 :: rest := hperm.mem_iff.mpr hr
      rcases List.mem_cons.mp hmem0 with h | h
      · exact h ▸ h0
      · exact hrest r h
    refine ⟨⟨s0.start_line, ((s0 :: srest).map (fun r => r.execution_count)).sum⟩,
      main s0 srest (hmem s0 (by simp)) (fun r hr => hmem r (by simp [hr])), ?_⟩
    exact ((hperm.map (fun r => r.execution_count)).sum_eq).symm

/-- Witness for C1 at the claim's own example: counts 3 and 4 for `"foo"`
with start line 10 distill to `{start_line := 10, execution_count := 7}`. -/
theorem distillFunction_merge_sum_witness :
    lookupVal "foo" (([⟨"foo", 10, 3⟩, ⟨"foo", 10, 4⟩] : List RawFunction).foldl
      (fun m r => distillFunction r m) []) = some ⟨10, 7⟩ := by
  have h := (distillFunction_merge_sum "foo" ⟨"foo", 10, 3⟩ [⟨"foo", 10, 4⟩] []
    rfl (by intro r hr; simp at hr; rw [hr]) rfl).1
  simpa using h

/-! ## C3/C4: branch-noise filtering -/

theorem pairsFlat_cons (p : Branch × Branch) (ps : List (Branch × Branch)) :
    pairsFlat (p :: ps) = p.1 :: p.2 :: pairsFlat ps := rfl

theorem pairsFlat_append (ps qs : List (Branch × Branch)) :
    pairsFlat (ps ++ qs) = pairsFlat ps ++ pairsFlat qs := by
  induction ps with
  | nil => rfl
  | cons p rest ih => simp [pairsFlat_cons, ih]

theorem length_pairsFlat (ps : List (Branch × Branch)) :
    (pairsFlat ps).length = 2 * ps.length := by
  induction ps with
  | nil => rfl
  | cons p rest ih => simp [pairsFlat_cons, ih]; omega

/-- Processing a run of well-paired branches whose non-throw pairs are never
zero/zero (so the initializer-list suppression cannot fire): the throw pairs
are dropped, the others appended, and the exception flag records whether any
pair was dropped. -/
theorem filterAux_pairsFlat (ps : List (Branch × Branch)) :
    ∀ (tail filtered : List Branch) (exc : Bool),
    (∀ p ∈ ps, p.2.throw = false → emptyBranchSet p.1 p.2 = false) →
    filterExceptionalBranchesAux (pairsFlat ps ++ tail) filtered exc =
      filterExceptionalBranchesAux tail
        (filtered ++ pairsFlat (ps.filter (fun p => !p.2.throw)))
        (exc || ps.any (fun p => p.2.throw)) := by
  induction ps with
  | nil => intro tail filtered exc _; simp [pairsFlat]
  | cons p rest ih =>
    intro tail filtered exc hp
    have hrest : ∀ q ∈ rest, q.2.throw = false → emptyBranchSet q.1 q.2 = false :=
      fun q hq => hp q (by simp [hq])
    rw [pairsFlat_cons, List.cons_append, List.cons_append,
      filterExceptionalBranchesAux.eq_3]
    cases hth : p.2.throw with
    | true =>
      rw [if_pos rfl, ih tail filtered true hrest]
      simp [List.filter_cons, List.any_cons, hth]
    | false =>
      have hemp : emptyBranchSet p.1 p.2 = false := hp p (by simp) hth
      rw [if_neg (by simp), if_neg (by simp [hemp]),
        ih tail (filtered ++ [p.1, p.2]) exc hrest]
      simp [List.filter_cons, List.any_cons, hth, pairsFlat_cons]

/-- C3 (amended): provided no incoming non-throw pair is zero/zero (so the
initializer-list suppression of C4 cannot fire), `filterExceptionalBranches`
drops exactly the pairs whose second element is flagged `throw`, keeps the
others, and retains an unpaired trailing branch as-is; and when full
exceptional-branch mode is requested, `distillLine` skips the filter, so the
pair `[{count 0, throw false}, {count 0, throw true}]` is retained in full
(both counts accumulated) instead of being dropped. -/
theorem filterExceptionalBranches_spec :
    (∀ (ps : List (Branch × Branch)) (t : Option Branch),
      (∀ p ∈ ps, p.2.throw = false → emptyBranchSet p.1 p.2 = false) →
      filterExceptionalBranches (pairsFlat ps ++ t.toList) =
        pairsFlat (ps.filter (fun p => !p.2.throw)) ++ t.toList)
    ∧ (distillLine ⟨7, 1, [⟨0, false⟩, ⟨0, true⟩]⟩ [] [] true).2 = [(7, [0, 0])]
    ∧ (distillLine ⟨7, 1, [⟨0, false⟩, ⟨0, true⟩]⟩ [] [] false).2 = [] := by
  refine ⟨?_, by decide, by decide⟩
  intro ps t hp
  unfold filterExceptionalBranches
  rw [filterAux_pairsFlat ps t.toList [] false hp]
  cases t with
  | none => simp [filterExceptionalBranchesAux]
  | some b => simp [filterExceptionalBranchesAux]

/-- Witness for the amended C3: the pair `(2, 0-throw)` is dropped, the
non-zero pair `(3, 4)` is kept, and the unpaired trailing branch `{count 9}`
is retained as-is. -/
theorem filterExceptionalBranches_spec_witness :
    filterExceptionalBranches
      [⟨3, false⟩, ⟨4, false⟩, ⟨2, false⟩, ⟨0, true⟩, ⟨9, false⟩] =
      [⟨3, false⟩, ⟨4, false⟩, ⟨9, false⟩] := by
  have h := filterExceptionalBranches_spec.1
    [(⟨3, false⟩, ⟨4, false⟩), (⟨2, false⟩, ⟨0, true⟩)] (some ⟨9, false⟩)
    (by decide)
  simpa [pairsFlat] using h

/-- C3 counterexample: an unpaired trailing branch is *not* always retained —
when the initializer-list suppression empties the list first, the trailing
branch disappears with everything else.  Here the odd-length input ends in
the branch `{count 7}` and the filtered result is `[]`. -/
theorem filterExceptionalBranches_trailing_counterexample :
    filterExceptionalBranches
        [⟨5, false⟩, ⟨5, false⟩, ⟨1, false⟩, ⟨1, true⟩,
         ⟨0, false⟩, ⟨0, false⟩, ⟨7, false⟩] = []
    ∧ ([⟨5, false⟩, ⟨5, false⟩, ⟨1, false⟩, ⟨1, true⟩,
        ⟨0, false⟩, ⟨0, false⟩, ⟨7, false⟩] : List Branch).length % 2 = 1
    ∧ (⟨7, false⟩ : Branch) ∉ filterExceptionalBranches
        [⟨5, false⟩, ⟨5, false⟩, ⟨1, false⟩, ⟨1, true⟩,
         ⟨0, false⟩, ⟨0, false⟩, ⟨7, false⟩] := by decide

/-- C4 (amended): the initializer-list suppression fires when, after some
pair has been dropped as an exception artifact, a later non-throw pair with
both counts zero is processed while at least two branches have been retained
and the two most recently retained branches have equal counts — then the
whole line's filtered branch list is returned empty.  (The code tests the
*incoming* pair for zero/zero and the retained tail only for *matching*
counts, and the check happens at the later pair, not right after the
drop.) -/
theorem filterExceptionalBranches_initializer_suppression
    (ps : List (Branch × Branch)) (q : Branch × Branch)
    (t1 t2 z1 z2 : Branch) (rest : List Branch)
    (hkeep : ∀ p ∈ ps ++ [q],
      p.2.throw = false ∧ emptyBranchSet p.1 p.2 = false)
    (hmatch : matchingBranchSet q.2 q.1 = true)
    (ht : t2.throw = true) (hz2 : z2.throw = false)
    (hz : emptyBranchSet z1 z2 = true) :
    filterExceptionalBranches
      (pairsFlat (ps ++ [q]) ++ t1 :: t2 :: z1 :: z2 :: rest) = [] := by
  unfold filterExceptionalBranches
  rw [filterAux_pairsFlat (ps ++ [q]) _ [] false
    (fun p hp _ => (hkeep p hp).2)]
  have hfilter : (ps ++ [q]).filter (fun p => !p.2.throw) = ps ++ [q] :=
    List.filter_eq_self.mpr (fun p hp => by simp [(hkeep p hp).1])
  have hany : (ps ++ [q]).any (fun p => p.2.throw) = false :=
    List.any_eq_false.mpr (fun p hp => by simp [(hkeep p hp).1])
  rw [hfilter, hany]
  simp only [List.nil_append, Bool.or_false]
  have hstep : filterExceptionalBranchesAux
      (t1 :: t2 :: z1 :: z2 :: rest) (pairsFlat (ps ++ [q])) false =
      filterExceptionalBranchesAux (z1 :: z2 :: rest)
        (pairsFlat (ps ++ [q])) true := by
    simp [filterExceptionalBranchesAux, ht]
  rw [hstep]
  have hF : pairsFlat (ps ++ [q]) = pairsFlat ps ++ [q.1, q.2] := by
    rw [pairsFlat_append]; rfl
  rw [hF]
  have hlenA : (pairsFlat ps ++ [q.1, q.2]).length =
      (pairsFlat ps).length + 2 := by simp
  have hget1 : (pairsFlat ps ++ [q.1, q.2]).getD
      ((pairsFlat ps ++ [q.1, q.2]).length - 1) ⟨0, false⟩ = q.2 := by
    rw [hlenA]
    have he : (pairsFlat ps).length + 2 - 1 = (pairsFlat ps).length + 1 := by
      omega
    rw [he, List.getD_append_right _ _ _ _ (by omega)]
    simp
  have hget2 : (pairsFlat ps ++ [q.1, q.2]).getD
      ((pairsFlat ps ++ [q.1, q.2]).length - 2) ⟨0, false⟩ = q.1 := by
    rw [hlenA]
    have he : (pairsFlat ps).length + 2 - 2 = (pairsFlat ps).length := by
      omega
    rw [he, List.getD_append_right _ _ _ _ (by omega)]
    simp
  rw [filterExceptionalBranchesAux.eq_3, if_neg (by simp [hz2]), if_pos]
  rw [hget1, hget2, hz, hmatch]
  simp [hlenA]

/-- Witness for the amended C4: a retained matching pair of count 5, then a
dropped throw pair, then a zero/zero pair — the result is empty. -/
theorem filterExceptionalBranches_initializer_suppression_witness :
    filterExceptionalBranches
      [⟨5, false⟩, ⟨5, false⟩, ⟨1, false⟩, ⟨1, true⟩,
       ⟨0, false⟩, ⟨0, false⟩] = [] := by
  have h := filterExceptionalBranches_initializer_suppression []
    (⟨5, false⟩, ⟨5, false⟩) ⟨1, false⟩ ⟨1, true⟩ ⟨0, false⟩ ⟨0, false⟩ []
    (by decide) (by decide) rfl rfl (by decide)
  simpa [pairsFlat] using h

/-- C4 counterexample: the claim's trigger condition is not what the code
tests.  A pair is dropped as an exception artifact while the two most
recently retained branches are zero/zero and identical, yet the next
non-throw pair has counts `(1, 2)` (not zero/zero), so the code keeps
everything: the result is non-empty, contradicting the claim that the list
is returned empty. -/
theorem filterExceptionalBranches_suppression_counterexample :
    filterExceptionalBranches
        [⟨0, false⟩, ⟨0, false⟩, ⟨1, false⟩, ⟨1, true⟩,
         ⟨1, false⟩, ⟨2, false⟩] =
      [⟨0, false⟩, ⟨0, false⟩, ⟨1, false⟩, ⟨2, false⟩]
    ∧ filterExceptionalBranches
        [⟨0, false⟩, ⟨0, false⟩, ⟨1, false⟩, ⟨1, true⟩,
         ⟨1, false⟩, ⟨2, false⟩] ≠ [] := by decide

/-! ## C2: branch accumulation in distillLine -/

theorem getD_set_self (l : List Nat) (i v : Nat) (h : i < l.length) :
    (l.set i v).getD i 0 = v := by
  rw [List.getD_eq_getD_get?, List.get?_eq_getElem?,
    List.getElem?_set_eq_of_lt v h]
  rfl

theorem getD_set_ne (l : List Nat) (i j v : Nat) (h : i ≠ j) :
    (l.set i v).getD j 0 = l.getD j 0 := by
  rw [List.getD_eq_getD_get?, List.get?_eq_getElem?, List.getElem?_set_ne h,
    ← List.get?_eq_getElem?, ← List.getD_eq_getD_get?]

theorem getD_replicate_zero (r k : Nat) :
    (List.replicate r (0 : Nat)).getD k 0 = 0 := by
  induction r generalizing k with
  | zero => rfl
  | succ n ih =>
    cases k with
    | zero => rfl
    | succ m => exact ih m

theorem length_accumGo (glen : Nat) (inc : List Nat) :
    ∀ (i : Nat) (acc : List Nat), glen ≤ acc.length →
    (accumGo glen inc i acc).length = acc.length := by
  induction inc with
  | nil => intro i acc _; rfl
  | cons c rest ih =>
    intro i acc h
    have hnl : ¬ acc.length < glen := Nat.not_lt.mpr h
    simp only [accumGo, hnl, if_false]
    rw [ih (i + 1) _ (by rw [List.length_set]; exact h), List.length_set]

theorem getD_accumGo (glen : Nat) (inc : List Nat) :
    ∀ (i : Nat) (acc : List Nat), glen ≤ acc.length →
    i + inc.length ≤ glen → ∀ j,
    (accumGo glen inc i acc).getD j 0 =
      acc.getD j 0 +
        (if i ≤ j ∧ j < i + inc.length then inc.getD (j - i) 0 else 0) := by
  induction inc with
  | nil =>
    intro i acc _ _ j
    rw [if_neg (by simp only [List.length_nil]; omega)]
    rfl
  | cons c rest ih =>
    intro i acc hg hlen j
    have hnl : ¬ acc.length < glen := Nat.not_lt.mpr hg
    have hi : i < acc.length := by
      simp only [List.length_cons] at hlen
      omega
    simp only [accumGo, hnl, if_false]
    rw [ih (i + 1) (acc.set i (acc.getD i 0 + c))
      (by rw [List.length_set]; exact hg)
      (by simp only [List.length_cons] at hlen; omega) j]
    by_cases hji : j = i
    · subst hji
      rw [getD_set_self acc j _ hi, if_neg (by omega), if_pos
        (by simp only [List.length_cons]; omega)]
      simp
    · rw [getD_set_ne acc i j _ (fun hc => hji hc.symm)]
      by_cases hc : i ≤ j ∧ j < i + (c :: rest).length
      · have hc' : i + 1 ≤ j ∧ j < i + 1 + rest.length := by
          simp only [List.length_cons] at hc
          omega
        rw [if_pos hc', if_pos hc]
        have he : j - i = (j - (i + 1)) + 1 := by omega
        rw [he]
        rfl
      · rw [if_neg hc, if_neg (by simp only [List.length_cons] at hc; omega)]

theorem length_accumBranchCounts (canon inc : List Nat) (h : inc ≠ []) :
    (accumBranchCounts canon inc).length = max canon.length inc.length := by
  match inc, h with
  | c :: rest, _ =>
    show (accumGo (c :: rest).length (c :: rest) 0 canon).length = _
    simp only [accumGo]
    by_cases hlt : canon.length < (c :: rest).length
    · rw [if_pos hlt]
      rw [length_accumGo _ _ _ _ (by simp [List.length_set]; omega),
        List.length_set]
      simp only [List.length_append, List.length_replicate]
      omega
    · rw [if_neg hlt]
      rw [length_accumGo _ _ _ _ (by rw [List.length_set]; omega),
        List.length_set]
      omega

theorem getD_padZero (l : List Nat) (n : Nat) (_h : l.length ≤ n) (j : Nat) :
    (padZero l n).getD j 0 = l.getD j 0 := by
  unfold padZero
  by_cases hj : j < l.length
  · exact List.getD_append _ _ _ _ hj
  · rw [List.getD_append_right _ _ _ _ (by omega), getD_replicate_zero,
      List.getD_eq_default _ _ (by omega)]

theorem length_padZero (l : List Nat) (n : Nat) (h : l.length ≤ n) :
    (padZero l n).length = n := by
  unfold padZero
  simp only [List.length_append, List.length_replicate]
  omega

theorem getD_accumBranchCounts (canon inc : List Nat) (h : inc ≠ []) (j : Nat) :
    (accumBranchCounts canon inc).getD j 0 = canon.getD j 0 + inc.getD j 0 := by
  match inc, h with
  | c :: rest, _ =>
    show (accumGo (c :: rest).length (c :: rest) 0 canon).getD j 0 = _
    have hpad : ∀ k, (if canon.length < (c :: rest).length then
        canon ++ List.replicate ((c :: rest).length - canon.length) 0
        else canon).getD k 0 = canon.getD k 0 := by
      intro k
      by_cases hlt : canon.length < (c :: rest).length
      · rw [if_pos hlt]
        exact getD_padZero canon (c :: rest).length (by omega) k
      · rw [if_neg hlt]
    have hplen : (c :: rest).length ≤ (if canon.length < (c :: rest).length
        then canon ++ List.replicate ((c :: rest).length - canon.length) 0
        else canon).length := by
      by_cases hlt : canon.length < (c :: rest).length
      · rw [if_pos hlt]
        simp only [List.length_append, List.length_replicate]
        omega
      · rw [if_neg hlt]
        omega
    simp only [accumGo]
    set A := if canon.length < (c :: rest).length then
      canon ++ List.replicate ((c :: rest).length - canon.length) 0
      else canon with hA
    have h0 : 0 < A.length := by
      have := hplen
      simp only [List.length_cons] at this
      omega
    rw [getD_accumGo _ _ 1 (A.set 0 (A.getD 0 0 + c))
      (by rw [List.length_set]; exact hplen)
      (by simp only [List.length_cons]; omega) j]
    by_cases hj0 : j = 0
    · subst hj0
      rw [getD_set_self A 0 _ h0, hpad 0, if_neg (by omega)]
      have he : (c :: rest).getD 0 0 = c := rfl
      rw [he]
      omega
    · rw [getD_set_ne A 0 j _ (fun hc => hj0 hc.symm), hpad j]
      by_cases hj : j < (c :: rest).length
      · rw [if_pos (by simp only [List.length_cons] at hj ⊢; omega)]
        have he : (c :: rest).getD j 0 = rest.getD (j - 1) 0 := by
          match j, hj0 with
          | k + 1, _ => rfl
        rw [he]
      · rw [if_neg (by simp only [List.length_cons] at hj ⊢; omega),
          show (c :: rest).getD j 0 = 0 from
            List.getD_eq_default _ _ (by omega)]

theorem getD_zipWith_add (as : List Nat) :
    ∀ (bs : List Nat), as.length = bs.length → ∀ j,
    (List.zipWith (· + ·) as bs).getD j 0 = as.getD j 0 + bs.getD j 0 := by
  induction as with
  | nil =>
    intro bs h j
    cases bs with
    | nil => rfl
    | cons b bs => simp at h
  | cons a as ih =>
    intro bs h j
    cases bs with
    | nil => simp at h
    | cons b bs =>
      cases j with
      | zero => rfl
      | succ m => exact ih bs (by simpa using h) m

theorem ext_of_length_getD {l1 l2 : List Nat}
    (hlen : l1.length = l2.length)
    (h : ∀ j, l1.getD j 0 = l2.getD j 0) : l1 = l2 := by
  apply List.ext_getElem hlen
  intro n h1 h2
  have := h n
  rwa [List.getD_eq_getElem _ _ h1, List.getD_eq_getElem _ _ h2] at this

/-- C2: accumulating an incoming branch-count list into the canonical
per-line list zero-extends the canonical list to the larger length and adds
index-wise (equivalently: the sum of both lists zero-padded to the common
length); the canonical list's length never shrinks; and at the map level,
`distillLine` never shortens any line's stored branch-count list. -/
theorem accumBranchCounts_spec :
    (∀ canon inc : List Nat, inc ≠ [] →
      accumBranchCounts canon inc =
        List.zipWith (· + ·)
          (padZero canon (max canon.length inc.length))
          (padZero inc (max canon.length inc.length)))
    ∧ (∀ canon inc : List Nat,
        canon.length ≤ (accumBranchCounts canon inc).length)
    ∧ (∀ (line_raw : RawLine) (lines : List (Nat × Nat))
        (branches : List (Nat × List Nat)) (incl : Bool) (l : Nat)
        (v : List Nat), lookupVal l branches = some v →
        ∃ v', lookupVal l (distillLine line_raw lines branches incl).2 = some v'
          ∧ v.length ≤ v'.length) := by
  have hzip : ∀ canon inc : List Nat, inc ≠ [] →
      accumBranchCounts canon inc =
        List.zipWith (· + ·)
          (padZero canon (max canon.length inc.length))
          (padZero inc (max canon.length inc.length)) := by
    intro canon inc h
    have hc : canon.length ≤ max canon.length inc.length := le_max_left _ _
    have hi : inc.length ≤ max canon.length inc.length := le_max_right _ _
    apply ext_of_length_getD
    · rw [length_accumBranchCounts canon inc h, List.length_zipWith,
        length_padZero _ _ hc, length_padZero _ _ hi]
      omega
    · intro j
      rw [getD_accumBranchCounts canon inc h j,
        getD_zipWith_add _ _ (by rw [length_padZero _ _ hc,
          length_padZero _ _ hi]) j,
        getD_padZero _ _ hc, getD_padZero _ _ hi]
  have hmono : ∀ canon inc : List Nat,
      canon.length ≤ (accumBranchCounts canon inc).length := by
    intro canon inc
    cases inc with
    | nil => exact Nat.le_refl _
    | cons c rest =>
      rw [length_accumBranchCounts canon (c :: rest) (by simp)]
      omega
  refine ⟨hzip, hmono, ?_⟩
  intro line_raw lines branches incl l v hv
  have hsnd : (distillLine line_raw lines branches incl).2 =
      distillLineBranches line_raw.line_number
        (if incl then line_raw.branches
          else filterExceptionalBranches line_raw.branches) branches := rfl
  rw [hsnd]
  cases hlb : (if incl then line_raw.branches
      else filterExceptionalBranches line_raw.branches) with
  | nil => exact ⟨v, hv, Nat.le_refl _⟩
  | cons b bs =>
    simp only [distillLineBranches]
    cases hlook : lookupVal line_raw.line_number branches with
    | none =>
      exact ⟨v, lookupVal_append_some _ hv, Nat.le_refl _⟩
    | some cur =>
      by_cases hl : l = line_raw.line_number
      · subst hl
        have hveq : v = cur := by
          rw [hv] at hlook
          exact (Option.some.injEq _ _).mp hlook
        subst hveq
        refine ⟨accumBranchCounts v ((b :: bs).map (fun br => br.count)),
          lookupVal_setVal_self _ hv, hmono v _⟩
      · exact ⟨v, by rw [lookupVal_setVal_ne _ hl]; exact hv, Nat.le_refl _⟩

/-- Witness for C2 at the claim's example sizes: merging canonical `[1, 2]`
(length 2) with incoming `[10, 20, 30, 40]` (length 4) zero-extends the
shorter and sums index-wise, yielding the length-4 list `[11, 22, 30, 40]`. -/
theorem accumBranchCounts_spec_witness :
    accumBranchCounts [1, 2] [10, 20, 30, 40] =
      List.zipWith (· + ·) (padZero [1, 2] 4) (padZero [10, 20, 30, 40] 4)
    ∧ accumBranchCounts [1, 2] [10, 20, 30, 40] = [11, 22, 30, 40]
    ∧ (accumBranchCounts [1, 2] [10, 20, 30, 40]).length = 4
    ∧ (∃ v', lookupVal 3 (distillLine
        ⟨3, 1, [⟨10, false⟩, ⟨20, false⟩, ⟨30, false⟩, ⟨40, false⟩]⟩
        [] [(3, [1, 2])] true).2 = some v' ∧ ([1, 2] : List Nat).length ≤
          v'.length)
    ∧ (distillLine ⟨3, 1, [⟨10, false⟩, ⟨20, false⟩, ⟨30, false⟩, ⟨40, false⟩]⟩
        [] [(3, [1, 2])] true).2 = [(3, [11, 22, 30, 40])] := by
  refine ⟨?_, by decide, by decide, ?_, by decide⟩
  · have h := accumBranchCounts_spec.1 [1, 2] [10, 20, 30, 40] (by decide)
    simpa using h
  · exact accumBranchCounts_spec.2.2
      ⟨3, 1, [⟨10, false⟩, ⟨20, false⟩, ⟨30, false⟩, ⟨40, false⟩]⟩
      [] [(3, [1, 2])] true 3 [1, 2] rfl

/-! ## C5: chunk partitioning -/

theorem chunksList_props {α : Type} (n : Nat) (hn : 1 ≤ n) :
    ∀ (k : Nat) (l : List α), l.length ≤ k →
    (chunksList l n).flatten = l
    ∧ (∀ c ∈ chunksList l n, c ≠ [] ∧ c.length ≤ n)
    ∧ (∀ c ∈ (chunksList l n).dropLast, c.length = n) := by
  intro k
  induction k with
  | zero =>
    intro l hl
    have hnil : l = [] := List.eq_nil_of_length_eq_zero (by omega)
    subst hnil
    rw [chunksList]
    simp
  | succ m ih =>
    intro l hl
    by_cases hz : l.length = 0
    · have hnil : l = [] := List.eq_nil_of_length_eq_zero hz
      subst hnil
      rw [chunksList]
      simp
    · rw [chunksList, dif_neg (by omega)]
      obtain ⟨hf, hc, hd⟩ := ih (l.drop n)
        (by simp only [List.length_drop]; omega)
      have htake : (l.take n).length = min n l.length := List.length_take _ _
      refine ⟨?_, ?_, ?_⟩
      · rw [List.flatten_cons, hf, List.take_append_drop]
      · intro c hcm
        rcases List.mem_cons.mp hcm with hceq | hcm'
        · subst hceq
          constructor
          · intro hcnil
            rw [hcnil] at htake
            simp only [List.length_nil] at htake
            omega
          · omega
        · exact hc c hcm'
      · cases hrest : chunksList (l.drop n) n with
        | nil =>
          intro c hcd
          simp at hcd
        | cons y ys =>
          intro c hcd
          have hdropne : l.drop n ≠ [] := by
            intro hcon
            rw [chunksList] at hrest
            rw [hcon] at hrest
            simp at hrest
          have hnlt : n < l.length := by
            have := List.length_drop n l
            by_contra hcon
            exact hdropne (List.drop_eq_nil_of_le (by omega))
          rw [List.dropLast_cons_of_ne_nil (by simp)] at hcd
          rcases List.mem_cons.mp hcd with hceq | hcm'
          · subst hceq
            omega
          · rw [← hrest] at hcm'
            exact hd c hcm'

/-- C5 (amended): both fan-out phases partition their input list into
contiguous chunks of size `max(minChunkSize, floor(totalFiles/workerCount)
+ 1)` — not `ceil(totalFiles/workerCount)` — for every non-empty input,
worker count at least 1 and any minimum chunk size: the chunks concatenate
back to the input, every chunk is non-empty of length at most the chunk
size, every chunk except possibly the last is exactly full, and one worker
is spawned per chunk (the thread list is created from exactly this chunk
list). -/
theorem chunking_spec {α : Type} (l : List α) (jobs min_chunk : Nat)
    (_hne : l ≠ []) (_hjobs : 1 ≤ jobs) :
    1 ≤ chunkSize min_chunk l.length jobs
    ∧ chunkSize min_chunk l.length jobs =
        max min_chunk (l.length / jobs + 1)
    ∧ (chunksList l (chunkSize min_chunk l.length jobs)).flatten = l
    ∧ (∀ c ∈ chunksList l (chunkSize min_chunk l.length jobs),
        c ≠ [] ∧ c.length ≤ chunkSize min_chunk l.length jobs)
    ∧ (∀ c ∈ (chunksList l (chunkSize min_chunk l.length jobs)).dropLast,
        c.length = chunkSize min_chunk l.length jobs) := by
  have hn : 1 ≤ chunkSize min_chunk l.length jobs := by
    unfold chunkSize
    exact le_trans (Nat.succ_le_succ (Nat.zero_le _)) (le_max_right _ _)
  obtain ⟨hf, hc, hd⟩ := chunksList_props (chunkSize min_chunk l.length jobs)
    hn l.length l (Nat.le_refl _)
  exact ⟨hn, rfl, hf, hc, hd⟩

/-- Witness for the amended C5: 5 files over 2 workers with minimum chunk
size 1 gives chunk size `max(1, 5 div 2 + 1) = 3` and chunks
`[[0,1,2],[3,4]]`. -/
theorem chunking_spec_witness :
    chunkSize 1 5 2 = 3
    ∧ (chunksList ([0, 1, 2, 3, 4] : List Nat) (chunkSize 1 5 2)).flatten =
        [0, 1, 2, 3, 4]
    ∧ chunksList ([0, 1, 2, 3, 4] : List Nat) (chunkSize 1 5 2) =
        [[0, 1, 2], [3, 4]] := by
  refine ⟨rfl, (chunking_spec [0, 1, 2, 3, 4] 2 1 (by decide)
    (by decide)).2.2.1, ?_⟩
  show chunksList ([0, 1, 2, 3, 4] : List Nat) 3 = [[0, 1, 2], [3, 4]]
  simp [chunksList]

/-- C5 counterexample: the claim's `ceil(totalFiles/workerCount)` sizing is
not what the code computes.  With 4 files, 2 workers and minimum chunk size
1, `ceil(4/2) = 2` but the code's `int(4/2) + 1 = 3`, so the chunks are
`[[1,2,3],[4]]` (sizes 3 and 1) rather than two chunks of size 2. -/
theorem chunkSize_counterexample :
    chunkSize 1 4 2 = 3
    ∧ max 1 ((4 + 2 - 1) / 2) = 2
    ∧ chunkSize 1 4 2 ≠ max 1 ((4 + 2 - 1) / 2)
    ∧ chunksList ([1, 2, 3, 4] : List Nat) (chunkSize 1 4 2) = [[1, 2, 3], [4]]
    ∧ ¬ (∀ c ∈ chunksList ([1, 2, 3, 4] : List Nat) (chunkSize 1 4 2),
          c.length ≤ max 1 ((4 + 2 - 1) / 2)) := by
  have he : chunksList ([1, 2, 3, 4] : List Nat) (chunkSize 1 4 2) =
      [[1, 2, 3], [4]] := by
    show chunksList ([1, 2, 3, 4] : List Nat) 3 = [[1, 2, 3], [4]]
    simp [chunksList]
  refine ⟨rfl, rfl, by decide, he, ?_⟩
  intro hcon
  have := hcon [1, 2, 3] (by rw [he]; simp)
  simp at this

/-! ## C6/C7/C10: exclusion-marker scanning -/

theorem branchFilterStep_nil (i : Nat) (line : List Char) (r : SourceRecord) :
    branchFilterStep [] [] i line r = (r, false) := by
  unfold branchFilterStep
  simp

theorem exclScanGo_cons (incl excl : List (List Char)) (line : List Char)
    (rest : List (List Char)) (i : Nat) (st : SourceRecord × Nat) :
    exclScanGo incl excl (line :: rest) i st =
      if (exclStep incl excl st i line).2 then
        ((exclStep incl excl st i line).1, true)
      else exclScanGo incl excl rest (i + 1)
        (exclStep incl excl st i line).1 := rfl

theorem exclStep_plain (st : SourceRecord × Nat) (i : Nat) (line : List Char)
    (hline : subStr lcovExcl line = false) :
    exclStep [] [] st i line = (st, false) := by
  unfold exclStep markerStep
  rw [branchFilterStep_nil]
  simp [hline]

theorem exclScanGo_plain (ls : List (List Char)) :
    ∀ (rest : List (List Char)) (i : Nat) (st : SourceRecord × Nat),
    (∀ l ∈ ls, subStr lcovExcl l = false) →
    exclScanGo [] [] (ls ++ rest) i st =
      exclScanGo [] [] rest (i + ls.length) st := by
  induction ls with
  | nil => intro rest i st _; simp
  | cons l ls ih =>
    intro rest i st h
    rw [List.cons_append, exclScanGo_cons,
      exclStep_plain st i l (h l (by simp))]
    simp only [if_false, Bool.false_eq_true]
    rw [ih rest (i + 1) st (fun x hx => h x (by simp [hx]))]
    have harith : i + 1 + ls.length = i + (l :: ls).length := by
      simp only [List.length_cons]
      omega
    rw [harith]

theorem exclStep_start (st : SourceRecord × Nat) (i : Nat) :
    exclStep [] [] st i mkStartLine = ((st.1, i), false) := by
  have h1 : subStr lcovExcl mkStartLine = true := by decide
  have h2 : subStr lcovExclLine mkStartLine = false := by decide
  have h3 : subStr lcovExclStart mkStartLine = true := by decide
  unfold exclStep markerStep
  rw [branchFilterStep_nil]
  simp [h1, h2, h3]

theorem exclStep_stop_noop (r : SourceRecord) (i : Nat) :
    exclStep [] [] (r, 0) i mkStopLine = ((r, 0), false) := by
  have h1 : subStr lcovExcl mkStopLine = true := by decide
  have h2 : subStr lcovExclLine mkStopLine = false := by decide
  have h3 : subStr lcovExclStart mkStopLine = false := by decide
  have h4 : subStr lcovExclStop mkStopLine = true := by decide
  unfold exclStep markerStep
  rw [branchFilterStep_nil]
  simp [h1, h2, h3, h4]

theorem exclStep_stop_del (r : SourceRecord) (s i : Nat) (hs : s ≠ 0) :
    exclStep [] [] (r, s) i mkStopLine =
      (({ r with
          lines := r.lines.filter (fun p => !(s ≤ p.1 && p.1 ≤ i)),
          branches := r.branches.filter (fun p => !(s ≤ p.1 && p.1 ≤ i)) },
        0), false) := by
  have h1 : subStr lcovExcl mkStopLine = true := by decide
  have h2 : subStr lcovExclLine mkStopLine = false := by decide
  have h3 : subStr lcovExclStart mkStopLine = false := by decide
  have h4 : subStr lcovExclStop mkStopLine = true := by decide
  unfold exclStep markerStep
  rw [branchFilterStep_nil]
  simp [h1, h2, h3, h4, hs]

theorem exclScanGo_nil (incl excl : List (List Char)) (i : Nat)
    (st : SourceRecord × Nat) :
    exclScanGo incl excl [] i st = (st, false) := rfl

theorem exclScanGo_plain_all (ls : List (List Char)) (i : Nat)
    (st : SourceRecord × Nat)
    (h : ∀ l ∈ ls, subStr lcovExcl l = false) :
    exclScanGo [] [] ls i st = (st, false) := by
  have hp := exclScanGo_plain ls [] i st h
  rw [List.append_nil] at hp
  rw [hp, exclScanGo_nil]

/-- C6: range markers during exclusion scanning (with no branch prefix
filters configured).  (a) With two range-starts before a stop, the later
start overwrites the pending one (last start wins) and the stop deletes
exactly the line and branch entries numbered within the *second* start's
line through the stop line, then clears the pending start.  (b) With a
single start, the stop deletes `[start, stop]` inclusive.  (c) A stop with
no pending start is a no-op.  Line numbers are 1-based positions in the
scanned file. -/
theorem exclMarker_range_spec :
    (∀ (r : SourceRecord) (pre mid1 mid2 post : List (List Char)),
      (∀ l ∈ pre ++ mid1 ++ mid2 ++ post, subStr lcovExcl l = false) →
      exclMarkerScan r (pre ++ [mkStartLine] ++ mid1 ++ [mkStartLine] ++ mid2
          ++ [mkStopLine] ++ post) [] [] =
        (({ r with
            lines := r.lines.filter (fun p =>
              !(pre.length + mid1.length + 2 ≤ p.1 &&
                p.1 ≤ pre.length + mid1.length + mid2.length + 3)),
            branches := r.branches.filter (fun p =>
              !(pre.length + mid1.length + 2 ≤ p.1 &&
                p.1 ≤ pre.length + mid1.length + mid2.length + 3)) },
          0), false))
    ∧ (∀ (r : SourceRecord) (pre mid post : List (List Char)),
      (∀ l ∈ pre ++ mid ++ post, subStr lcovExcl l = false) →
      exclMarkerScan r (pre ++ [mkStartLine] ++ mid ++ [mkStopLine] ++ post)
          [] [] =
        (({ r with
            lines := r.lines.filter (fun p =>
              !(pre.length + 1 ≤ p.1 && p.1 ≤ pre.length + mid.length + 2)),
            branches := r.branches.filter (fun p =>
              !(pre.length + 1 ≤ p.1 && p.1 ≤ pre.length + mid.length + 2)) },
          0), false))
    ∧ (∀ (r : SourceRecord) (pre post : List (List Char)),
      (∀ l ∈ pre ++ post, subStr lcovExcl l = false) →
      exclMarkerScan r (pre ++ [mkStopLine] ++ post) [] [] =
        ((r, 0), false)) := by
  refine ⟨?_, ?_, ?_⟩
  · intro r pre mid1 mid2 post h
    have hpre : ∀ l ∈ pre, subStr lcovExcl l = false :=
      fun l hl => h l (by simp [hl])
    have hmid1 : ∀ l ∈ mid1, subStr lcovExcl l = false :=
      fun l hl => h l (by simp [hl])
    have hmid2 : ∀ l ∈ mid2, subStr lcovExcl l = false :=
      fun l hl => h l (by simp [hl])
    have hpost : ∀ l ∈ post, subStr lcovExcl l = false :=
      fun l hl => h l (by simp [hl])
    unfold exclMarkerScan
    simp only [List.append_assoc, List.singleton_append, List.cons_append, List.nil_append]
    rw [exclScanGo_plain pre _ 1 (r, 0) hpre, exclScanGo_cons,
      exclStep_start]
    simp only [if_false, Bool.false_eq_true]
    rw [exclScanGo_plain mid1 _ _ _ hmid1, exclScanGo_cons, exclStep_start]
    simp only [if_false, Bool.false_eq_true]
    rw [exclScanGo_plain mid2 _ _ _ hmid2, exclScanGo_cons,
      exclStep_stop_del r (1 + pre.length + 1 + mid1.length)
        (1 + pre.length + 1 + mid1.length + 1 + mid2.length) (by omega)]
    simp only [if_false, Bool.false_eq_true]
    rw [exclScanGo_plain_all post _ _ hpost]
    have e1 : 1 + pre.length + 1 + mid1.length =
        pre.length + mid1.length + 2 := by omega
    rw [e1]
    have e2 : pre.length + mid1.length + 2 + 1 + mid2.length =
        pre.length + mid1.length + mid2.length + 3 := by omega
    rw [e2]
  · intro r pre mid post h
    have hpre : ∀ l ∈ pre, subStr lcovExcl l = false :=
      fun l hl => h l (by simp [hl])
    have hmid : ∀ l ∈ mid, subStr lcovExcl l = false :=
      fun l hl => h l (by simp [hl])
    have hpost : ∀ l ∈ post, subStr lcovExcl l = false :=
      fun l hl => h l (by simp [hl])
    unfold exclMarkerScan
    simp only [List.append_assoc, List.singleton_append, List.cons_append, List.nil_append]
    rw [exclScanGo_plain pre _ 1 (r, 0) hpre, exclScanGo_cons,
      exclStep_start]
    simp only [if_false, Bool.false_eq_true]
    rw [exclScanGo_plain mid _ _ _ hmid, exclScanGo_cons,
      exclStep_stop_del r (1 + pre.length)
        (1 + pre.length + 1 + mid.length) (by omega)]
    simp only [if_false, Bool.false_eq_true]
    rw [exclScanGo_plain_all post _ _ hpost]
    have e1 : 1 + pre.length = pre.length + 1 := by omega
    rw [e1]
    have e2 : pre.length + 1 + 1 + mid.length =
        pre.length + mid.length + 2 := by omega
    rw [e2]
  · intro r pre post h
    have hpre : ∀ l ∈ pre, subStr lcovExcl l = false :=
      fun l hl => h l (by simp [hl])
    have hpost : ∀ l ∈ post, subStr lcovExcl l = false :=
      fun l hl => h l (by simp [hl])
    unfold exclMarkerScan
    simp only [List.append_assoc, List.singleton_append, List.cons_append, List.nil_append]
    rw [exclScanGo_plain pre _ 1 (r, 0) hpre, exclScanGo_cons,
      exclStep_stop_noop]
    simp only [if_false, Bool.false_eq_true]
    rw [exclScanGo_plain_all post _ _ hpost]

/-- Witness for C6 at the claim's own example: entries at lines 5-25, a
range-start at line 10 and a range-stop at line 20; after scanning, entries
10-20 are gone and entries 5-9 and 21-25 remain, with the pending start
cleared and no error. -/
theorem exclMarker_range_spec_witness :
    exclMarkerScan
      ⟨[], (List.range 21).map (fun k => (k + 5, 1)),
        (List.range 21).map (fun k => (k + 5, [1]))⟩
      (List.replicate 9 ['x'] ++ [mkStartLine] ++ List.replicate 9 ['x']
        ++ [mkStopLine] ++ List.replicate 5 ['x']) [] [] =
      ((⟨[],
        [(5, 1), (6, 1), (7, 1), (8, 1), (9, 1),
         (21, 1), (22, 1), (23, 1), (24, 1), (25, 1)],
        [(5, [1]), (6, [1]), (7, [1]), (8, [1]), (9, [1]),
         (21, [1]), (22, [1]), (23, [1]), (24, [1]), (25, [1])]⟩, 0),
       false)
    ∧ exclMarkerScan ⟨[], [(1, 1), (2, 1), (3, 1), (4, 1)], []⟩
        [mkStartLine, mkStartLine, mkStopLine] [] [] =
      ((⟨[], [(1, 1), (4, 1)], []⟩, 0), false)
    ∧ exclMarkerScan ⟨[], [(1, 1)], []⟩ [mkStopLine] [] [] =
      ((⟨[], [(1, 1)], []⟩, 0), false) := by
  refine ⟨?_, ?_, ?_⟩
  · have h := exclMarker_range_spec.2.1
      ⟨[], (List.range 21).map (fun k => (k + 5, 1)),
        (List.range 21).map (fun k => (k + 5, [1]))⟩
      (List.replicate 9 ['x']) (List.replicate 9 ['x'])
      (List.replicate 5 ['x']) (by decide)
    exact h.trans (by decide)
  · have h := exclMarker_range_spec.1
      ⟨[], [(1, 1), (2, 1), (3, 1), (4, 1)], []⟩ [] [] [] [] (by decide)
    exact (by decide : exclMarkerScan
        ⟨[], [(1, 1), (2, 1), (3, 1), (4, 1)], []⟩
        [mkStartLine, mkStartLine, mkStopLine] [] [] =
      exclMarkerScan ⟨[], [(1, 1), (2, 1), (3, 1), (4, 1)], []⟩
        ([] ++ [mkStartLine] ++ [] ++ [mkStartLine] ++ []
          ++ [mkStopLine] ++ []) [] []).trans (h.trans (by decide))
  · have h := exclMarker_range_spec.2.2 ⟨[], [(1, 1)], []⟩ [] [] (by decide)
    exact (by decide : exclMarkerScan ⟨[], [(1, 1)], []⟩ [mkStopLine] [] [] =
      exclMarkerScan ⟨[], [(1, 1)], []⟩
        ([] ++ [mkStopLine] ++ []) [] []).trans h

/-- C7 (code bug): for a scanned line with a branch entry, the include-prefix
check and the exclude-prefix check each delete the entry on their own; but
on a line where both conditions hold (include list `["if"]`, exclude list
`["assert"]`, line text `assert(x);`) the code executes
`del fastcov_sources[source]["branches"][i]` twice, and the second delete
raises `KeyError` (modelled by the error flag), aborting the scan instead of
removing the entry without error. -/
theorem branchFilter_double_delete_keyerror :
    branchFilterStep ["if".toList] [] 1 ("assert(x);".toList)
        ⟨[], [(1, 1)], [(1, [1, 0])]⟩ = (⟨[], [(1, 1)], []⟩, false)
    ∧ branchFilterStep [] ["assert".toList] 1 ("assert(x);".toList)
        ⟨[], [(1, 1)], [(1, [1, 0])]⟩ = (⟨[], [(1, 1)], []⟩, false)
    ∧ branchFilterStep ["if".toList] ["assert".toList] 1 ("assert(x);".toList)
        ⟨[], [(1, 1)], [(1, [1, 0])]⟩ = (⟨[], [(1, 1)], []⟩, true)
    ∧ exclMarkerScan ⟨[], [(1, 1)], [(1, [1, 0])]⟩ ["assert(x);".toList]
        ["assert".toList] ["if".toList] =
      ((⟨[], [(1, 1)], []⟩, 0), true) := by decide

theorem functions_branchFilterStep (incl excl : List (List Char)) (i : Nat)
    (line : List Char) (r : SourceRecord) :
    ((branchFilterStep incl excl i line r).1).functions = r.functions := by
  unfold branchFilterStep
  dsimp only
  repeat' split
  all_goals rfl

theorem functions_markerStep (i : Nat) (line : List Char) (r : SourceRecord)
    (s : Nat) :
    ((markerStep i line r s).1).functions = r.functions := by
  unfold markerStep
  repeat' split
  all_goals rfl

theorem functions_exclStep (incl excl : List (List Char))
    (st : SourceRecord × Nat) (i : Nat) (line : List Char) :
    (((exclStep incl excl st i line).1).1).functions = st.1.functions := by
  unfold exclStep
  by_cases h : (branchFilterStep incl excl i line st.1).2
  · simp only [h, if_true]
    exact functions_branchFilterStep incl excl i line st.1
  · simp only [h, Bool.false_eq_true, if_false]
    rw [functions_markerStep, functions_branchFilterStep]

theorem exclScanGo_functions (incl excl : List (List Char))
    (ls : List (List Char)) :
    ∀ (i : Nat) (st : SourceRecord × Nat),
    (((exclScanGo incl excl ls i st).1).1).functions = st.1.functions := by
  induction ls with
  | nil => intro i st; rfl
  | cons l ls ih =>
    intro i st
    rw [exclScanGo_cons]
    by_cases h : (exclStep incl excl st i l).2
    · rw [if_pos h]
      exact functions_exclStep incl excl st i l
    · rw [if_neg h, ih (i + 1) ((exclStep incl excl st i l).1)]
      exact functions_exclStep incl excl st i l

/-- C10 (frame property): exclusion-marker scanning mutates only the lines
and branches maps — for every record, file text and prefix-filter
configuration (on both the normal and the error-aborted path), the functions
map after scanning equals the one before, so the serialized FNF
(function count) and the zero-execution tally behind FNH are unchanged even
when an exclusion range covers a function's lines. -/
theorem exclMarkerScan_frame :
    ∀ (r : SourceRecord) (fileLines : List (List Char))
      (excl incl : List (List Char)),
    (((exclMarkerScan r fileLines excl incl).1).1).functions = r.functions
    ∧ (((exclMarkerScan r fileLines excl incl).1).1).functions.length =
        r.functions.length
    ∧ fnMiss ((exclMarkerScan r fileLines excl incl).1.1) = fnMiss r := by
  intro r fileLines excl incl
  have h : (((exclMarkerScan r fileLines excl incl).1).1).functions =
      r.functions := exclScanGo_functions incl excl fileLines 1 (r, 0)
  exact ⟨h, by rw [h], by unfold fnMiss; rw [h]⟩

/-! ## C8: LCOV sort orders and branch tallies -/

instance : IsTotal (Nat × String) lexNS := ⟨by
  intro a b
  rcases Nat.lt_trichotomy a.1 b.1 with h | h | h
  · exact Or.inl (Or.inl h)
  · rcases le_total a.2 b.2 with h2 | h2
    · exact Or.inl (Or.inr ⟨h, h2⟩)
    · exact Or.inr (Or.inr ⟨h.symm, h2⟩)
  · exact Or.inr (Or.inl h)⟩

instance : IsTrans (Nat × String) lexNS := ⟨by
  intro a b c hab hbc
  rcases hab with h1 | ⟨h1, h1'⟩
  · rcases hbc with h2 | ⟨h2, h2'⟩
    · exact Or.inl (lt_trans h1 h2)
    · exact Or.inl (h2 ▸ h1)
  · rcases hbc with h2 | ⟨h2, h2'⟩
    · exact Or.inl (h1 ▸ h2)
    · exact Or.inr ⟨h1.trans h2, le_trans h1' h2'⟩⟩

instance : IsTotal (Nat × Nat) lexNN := ⟨by
  intro a b
  unfold lexNN
  omega⟩

instance : IsTrans (Nat × Nat) lexNN := ⟨by
  intro a b c
  unfold lexNN
  omega⟩

instance : IsTotal (Nat × Nat × Nat × Nat) lexBr := ⟨by
  intro a b
  unfold lexBr
  omega⟩

instance : IsTrans (Nat × Nat × Nat × Nat) lexBr := ⟨by
  intro a b c
  unfold lexBr
  omega⟩

theorem length_filter_add_length_filter_not {α : Type} (l : List α)
    (p : α → Bool) :
    (l.filter p).length + (l.filter (fun a => !(p a))).length = l.length := by
  induction l with
  | nil => rfl
  | cons a l ih =>
    by_cases h : p a
    · simp [List.filter_cons, h, ← ih]
      omega
    · simp only [Bool.not_eq_true] at h
      simp [List.filter_cons, h, ← ih]
      omega

theorem brdaOf_block (branches : List (Nat × List Nat)) :
    ∀ t ∈ brdaOf branches, t.2.1 = t.2.2.1 / 2 := by
  intro t ht
  unfold brdaOf at ht
  rw [List.mem_flatten] at ht
  obtain ⟨inner, hinner, htm⟩ := ht
  rw [List.mem_map] at hinner
  obtain ⟨p, _, hpeq⟩ := hinner
  subst hpeq
  rw [List.mem_map] at htm
  obtain ⟨ic, _, hiceq⟩ := htm
  subst hiceq
  rfl

theorem branchFound_eq_sum (branches : List (Nat × List Nat)) :
    branchFound branches = (branches.map (fun p => p.2.length)).sum := by
  unfold branchFound brdaOf
  induction branches with
  | nil => rfl
  | cons p rest ih =>
    simp only [List.map_cons, List.flatten_cons, List.length_append,
      List.length_map, List.enum_length, List.sum_cons]
    unfold brdaOf at ih
    rw [ih]

/-- C8: in the LCOV serialization of any source block, the FN lines are the
function `(start_line, name)` pairs in ascending lexicographic order; the
FNDA lines are the `(execution_count, name)` pairs, sorted by that
*different* key; and when the source has branch entries the block contains
the branch section: one BRDA tuple `(line, block, branch_index, count)` per
stored branch with `block = branch_index / 2`, sorted ascending by the full
tuple, followed by `BRF` = total stored branch count and `BRH` = the number
of stored branches with nonzero count. -/
theorem dumpSourceLcov_spec (sf : String) (data : SourceRecord) :
    (List.Sorted lexNS (List.insertionSort lexNS (fnPairs data))
      ∧ (List.insertionSort lexNS (fnPairs data)).Perm (fnPairs data))
    ∧ (List.Sorted lexNS (List.insertionSort lexNS (fndaPairs data))
      ∧ (List.insertionSort lexNS (fndaPairs data)).Perm (fndaPairs data))
    ∧ (data.branches ≠ [] → ∃ preL postL,
        dumpSourceLcov sf data =
          preL ++ dumpBranchCoverageToLcovInfo data.branches ++ postL)
    ∧ (List.Sorted lexBr (List.insertionSort lexBr (brdaOf data.branches))
      ∧ (List.insertionSort lexBr (brdaOf data.branches)).Perm
          (brdaOf data.branches))
    ∧ (∀ t ∈ brdaOf data.branches, t.2.1 = t.2.2.1 / 2)
    ∧ branchFound data.branches =
        (data.branches.map (fun p => p.2.length)).sum
    ∧ branchFound data.branches - branchMiss data.branches =
        ((brdaOf data.branches).filter (fun t => !(t.2.2.2 == 0))).length := by
  refine ⟨⟨List.sorted_insertionSort lexNS _, List.perm_insertionSort lexNS _⟩,
    ⟨List.sorted_insertionSort lexNS _, List.perm_insertionSort lexNS _⟩,
    ?_,
    ⟨List.sorted_insertionSort lexBr _, List.perm_insertionSort lexBr _⟩,
    brdaOf_block data.branches, branchFound_eq_sum data.branches, ?_⟩
  · intro hne
    refine ⟨["TN:", "SF:" ++ sf]
      ++ (List.insertionSort lexNS (fnPairs data)).map (fun v =>
           "FN:" ++ toString v.1 ++ "," ++ v.2)
      ++ (List.insertionSort lexNS (fndaPairs data)).map (fun v =>
           "FNDA:" ++ toString v.1 ++ "," ++ v.2)
      ++ ["FNF:" ++ toString data.functions.length,
          "FNH:" ++ toString (data.functions.length - fnMiss data)],
      (List.insertionSort lexNN (daPairs data)).map (fun v =>
           "DA:" ++ toString v.1 ++ "," ++ toString v.2)
      ++ ["LF:" ++ toString data.lines.length,
          "LH:" ++ toString (data.lines.length - lineMiss data),
          "end_of_record"], ?_⟩
    unfold dumpSourceLcov
    rw [if_neg (by simp [hne])]
    simp [List.append_assoc]
  · have hpart := length_filter_add_length_filter_not (brdaOf data.branches)
      (fun t => t.2.2.2 == 0)
    unfold branchMiss branchFound
    omega

/-- Witness for C8 on a concrete record with two functions and one
three-branch line. -/
theorem dumpSourceLcov_spec_witness :
    (⟨[("f", ⟨4, 0⟩), ("g", ⟨2, 3⟩)], [(3, 1)],
        [(2, [1, 0, 2])]⟩ : SourceRecord).branches ≠ []
    ∧ (∃ preL postL,
        dumpSourceLcov "a.c"
            ⟨[("f", ⟨4, 0⟩), ("g", ⟨2, 3⟩)], [(3, 1)], [(2, [1, 0, 2])]⟩ =
          preL ++ dumpBranchCoverageToLcovInfo [(2, [1, 0, 2])] ++ postL)
    ∧ branchFound [(2, [1, 0, 2])] - branchMiss [(2, [1, 0, 2])] = 2 := by
  refine ⟨by decide, (dumpSourceLcov_spec "a.c"
    ⟨[("f", ⟨4, 0⟩), ("g", ⟨2, 3⟩)], [(3, 1)], [(2, [1, 0, 2])]⟩).2.2.1
    (by decide), by decide⟩

/-! ## C9: JSON round trip -/

mutual

theorem roundtripVal : ∀ v : PyVal, loadJson (dumpJson v) = strKeys v
  | .pint _ => rfl
  | .pstr _ => rfl
  | .plist xs => by
    show PyVal.plist (loadJsonList (dumpJsonList xs)) =
      PyVal.plist (strKeysList xs)
    rw [roundtripList xs]
  | .pdict es => by
    show PyVal.pdict (loadJsonFields (dumpJsonFields es)) =
      PyVal.pdict (strKeysFields es)
    rw [roundtripFields es]

theorem roundtripList :
    ∀ xs : PyList, loadJsonList (dumpJsonList xs) = strKeysList xs
  | .nil => rfl
  | .cons x xs => by
    show PyList.cons (loadJson (dumpJson x)) (loadJsonList (dumpJsonList xs)) =
      PyList.cons (strKeys x) (strKeysList xs)
    rw [roundtripVal x, roundtripList xs]

theorem roundtripFields :
    ∀ es : PyFields, loadJsonFields (dumpJsonFields es) = strKeysFields es
  | .nil => rfl
  | .cons k v es => by
    show PyFields.cons (.pstr (keyStr k)) (loadJson (dumpJson v))
        (loadJsonFields (dumpJsonFields es)) =
      PyFields.cons (.pstr (keyStr k)) (strKeys v) (strKeysFields es)
    rw [roundtripVal v, roundtripFields es]

end

/-- C9 (amended): writing a canonical report with `json.dump` and re-parsing
the document yields the report with every value preserved and every dict key
turned into its string form — the integer line/branch keys come back as
their decimal strings (and string keys, key order aside, are unchanged), not
as a structurally identical mapping. -/
theorem jsonRoundTrip (sources : List (String × SourceRecord)) :
    loadJson (dumpJson (pyOfReport sources)) = strKeys (pyOfReport sources) :=
  roundtripVal (pyOfReport sources)

/-- C9 counterexample: distilling one raw record with a single line entry
`5 ↦ 2` and round-tripping the report through the JSON document produces the
lines dict keyed by the *string* `"5"`, while the in-memory report keys it
by the *int* `5` — the re-parsed report is not structurally identical. -/
theorem jsonRoundTrip_counterexample :
    distillReport [⟨"a.c", [], [⟨5, 2, []⟩]⟩] false =
      [("a.c", ⟨[], [(5, 2)], []⟩)]
    ∧ topKeys (getFieldStr (getFieldStr (getFieldStr
        (loadJson (dumpJson (pyOfReport (distillReport
          [⟨"a.c", [], [⟨5, 2, []⟩]⟩] false)))) "sources") "a.c") "lines") =
      [.pstr "5"]
    ∧ topKeys (getFieldStr (getFieldStr (getFieldStr
        (pyOfReport (distillReport [⟨"a.c", [], [⟨5, 2, []⟩]⟩] false))
        "sources") "a.c") "lines") = [.pint 5]
    ∧ loadJson (dumpJson (pyOfReport (distillReport
        [⟨"a.c", [], [⟨5, 2, []⟩]⟩] false))) ≠
      pyOfReport (distillReport [⟨"a.c", [], [⟨5, 2, []⟩]⟩] false) := by
  refine ⟨by decide, by decide, by decide, ?_⟩
  intro hcon
  exact absurd (congrArg (fun v => topKeys (getFieldStr (getFieldStr
    (getFieldStr v "sources") "a.c") "lines")) hcon) (by decide)

end Fastcov
